import Mathlib

set_option maxHeartbeats 1000000
set_option maxRecDepth 4000

/-!
Verification of the sheet-backed record store (src/index.js): a shallow
embedding of its pure logic (value equality, query filter, column-letter
codec, record projection) and of the stateful store operations (query,
fields, insert, update) as explicit functions over the fetched range,
with the remote interaction reified as a list of remote calls.
-/

/-- The values the embedded code manipulates: JavaScript strings, (integer)
numbers, `undefined` and `null`.  Sheet cells arrive as strings; numbers
appear through query and patch objects.  Every numeric value this
development evaluates is integral, so numbers are modelled as `Int`. -/
inductive JSValue where
  | str (s : String)
  | num (n : Int)
  | undef
  | null
deriving DecidableEq, Repr

/-- A plain JavaScript object with only own enumerable string-keyed
properties, as produced by the record projector: an insertion-ordered
association list. -/
abbrev JSRecord := List (String × JSValue)

/-- Own-property lookup: the value stored under key `k`, if any. -/
def getOwn (l : JSRecord) (k : String) : Option JSValue :=
  (l.find? (fun p => p.1 == k)).map (fun p => p.2)

/-- JavaScript property read `l[k]` on a plain object: `undefined` when the
key is absent. -/
def getProp (l : JSRecord) (k : String) : JSValue :=
  (getOwn l k).getD JSValue.undef

/-- Whether the object has an own property named `k`. -/
def hasKey (l : JSRecord) (k : String) : Bool :=
  (getOwn l k).isSome

/-- JavaScript property write `l[k] = v`: overwrites the existing entry in
place, or appends a new one (JS objects keep insertion order). -/
def setProp (l : JSRecord) (k : String) (v : JSValue) : JSRecord :=
  if hasKey l k then l.map (fun p => if p.1 == k then (k, v) else p)
  else l ++ [(k, v)]

/-- A JavaScript object together with (enumerable) prototype properties,
used for query and patch arguments, where own-versus-inherited matters to
the source's `hasOwnProperty` guards. -/
structure JSObject where
  own : List (String × JSValue)
  proto : List (String × JSValue)
deriving DecidableEq

/-- `q.hasOwnProperty k`. -/
def hasOwnProperty (q : JSObject) (k : String) : Bool :=
  (getOwn q.own k).isSome

/-- Property read `q[k]`: own properties shadow inherited ones. -/
def objGet (q : JSObject) (k : String) : JSValue :=
  match getOwn q.own k with
  | some v => v
  | none => (getOwn q.proto k).getD JSValue.undef

/-- The object's own keys in insertion order. -/
def ownKeys (q : JSObject) : List String :=
  q.own.map Prod.fst

/-- The keys a `for (const prop in q)` loop enumerates: own enumerable keys
first, then inherited keys not shadowed by an own key. -/
def forInKeys (q : JSObject) : List String :=
  ownKeys q ++ (q.proto.map Prod.fst).filter (fun k => !(ownKeys q).contains k)

/-- The numeric value of a list of decimal digit characters. -/
def digitsToNat (l : List Char) : Nat :=
  l.foldl (fun acc c => acc * 10 + (c.toNat - 48)) 0

/-- JavaScript `Number()` on a string (the ToNumber coercion): the empty
string converts to `0`; otherwise the string is parsed as an
optionally-signed decimal integer.  `none` models `NaN`.  This is the
decimal-integer fragment of the StringNumericLiteral grammar, which covers
every string this development evaluates; fractional, exponent, hex and
whitespace-padded forms are outside the fragment modelled here. -/
def strToNumber (s : String) : Option Int :=
  if s = "" then some 0
  else
    match s.data with
    | '-' :: rest =>
      if !rest.isEmpty && rest.all Char.isDigit then some (-(digitsToNat rest : Int))
      else none
    | '+' :: rest =>
      if !rest.isEmpty && rest.all Char.isDigit then some ((digitsToNat rest : Int))
      else none
    | l =>
      if l.all Char.isDigit then some ((digitsToNat l : Int)) else none

/-- JavaScript `Number()` on the modelled values: numbers are themselves,
`undefined` is `NaN`, `null` is `0`, strings parse via `strToNumber`. -/
def toNumber : JSValue → Option Int
  | .str s => strToNumber s
  | .num n => some n
  | .undef => none
  | .null => some 0

/-- JavaScript strict equality `===` on the modelled values: equal only
within one type. -/
def strictEq : JSValue → JSValue → Bool
  | .str a, .str b => a == b
  | .num a, .num b => a == b
  | .undef, .undef => true
  | .null, .null => true
  | _, _ => false

/-- Source `areEqual(a, b)`: strict equality, or both sides coerce to
numbers (`!isNaN(Number(x))`) and the numbers coincide. -/
def areEqual (a b : JSValue) : Bool :=
  if strictEq a b then true
  else
    match toNumber a, toNumber b with
    | some x, some y => x == y
    | _, _ => false

/-- Source `dataMatchesQuery(dataRow, query)`: a null/undefined query
(`!query`) matches everything; otherwise every own enumerable key of the
query must compare `areEqual` against the record (`continue` skips
inherited keys via the `hasOwnProperty` guard). -/
def dataMatchesQuery (dataRow : JSRecord) (query : Option JSObject) : Bool :=
  match query with
  | none => true
  | some q =>
    (forInKeys q).all (fun prop =>
      if !(hasOwnProperty q prop) then true
      else areEqual (getProp dataRow prop) (objGet q prop))

/-- Source `zeroBasedColumnNumberToSpreadsheetColumnLetters`, on the
character-level: `num % 26` gives the last letter
(`String.fromCharCode(65 + modulo)`), and when `num / 26` is nonzero the
prefix is the recursion at `num / 26 - 1`.  The recursion is structural on
a fuel argument (any fuel above `num` computes the same letters, see
`colLettersGo_fuel_irrel`) so that the function evaluates inside the
kernel. -/
def colLettersGo : Nat → Nat → List Char
  | 0, _ => []
  | fuel + 1, num =>
    let modulo := num % 26
    let letter := Char.ofNat (65 + modulo)
    let remainder := num / 26
    if remainder = 0 then [letter]
    else colLettersGo fuel (remainder - 1) ++ [letter]

/-- The recursion of the source function, with enough fuel. -/
def colLettersAux (num : Nat) : List Char :=
  colLettersGo (num + 1) num

/-- The source function itself, returning the column letters as a string. -/
def zeroBasedColumnNumberToSpreadsheetColumnLetters (num : Nat) : String :=
  String.mk (colLettersAux num)

/-- JavaScript `String.prototype.trim`: strips leading and trailing
whitespace (modelled over the ASCII whitespace characters). -/
def jsTrim (s : String) : String :=
  String.mk (((s.data.dropWhile Char.isWhitespace).reverse.dropWhile
    Char.isWhitespace).reverse)

/-- Source `convertObjectToRow(fields, newProps)`: one stringified, trimmed
cell per field; a property that is `null` or `undefined` (`!= null` is
false) renders as the empty string. -/
def convertObjectToRow (fields : List String) (newProps : JSRecord) : List String :=
  fields.map (fun fieldName =>
    match getProp newProps fieldName with
    | .undef => ""
    | .null => ""
    | .str s => jsTrim s
    | .num n => jsTrim (toString n))

/-- JavaScript array read `row[i]`: `undefined` past the end. -/
def rowGet (row : List String) (i : Nat) : JSValue :=
  match row.get? i with
  | some s => .str s
  | none => JSValue.undef

/-- The body of `_query`'s `fields.forEach((item, index) => ...)`: assign
`newItem[fields[index]] = row[index]` for each field position in order. -/
def projectRecordAux (row : List String) : Nat → List String → JSRecord → JSRecord
  | _, [], newItem => newItem
  | index, name :: names, newItem =>
    projectRecordAux row (index + 1) names (setProp newItem name (rowGet row index))

/-- One data row projected to a record by zipping the field list against the
row by position. -/
def projectRecord (fields : List String) (row : List String) : JSRecord :=
  projectRecordAux row 0 fields []

/-- The header mutation `fields[0] = 'ID'`: replaces position 0, or creates
it when the fetched header row is empty (JS index assignment extends the
array). -/
def setHead : List String → List String
  | [] => ["ID"]
  | _ :: t => "ID" :: t

/-- The `reduce` of `_query`: project each data row and push it when it
matches the query. -/
def queryRecords (fields : List String) (rows : List (List String))
    (query : Option JSObject) : List JSRecord :=
  rows.foldl (fun accum row =>
    let newItem := projectRecord fields row
    if dataMatchesQuery newItem query then accum ++ [newItem] else accum) []

/-- Source `_fields()`: the first fetched row with position 0 forced to
`"ID"`; `none` models the TypeError thrown when the fetch returns no rows
(destructuring `undefined`). -/
def fieldsOp : List (List String) → Option (List String)
  | [] => none
  | header :: _ => some (setHead header)

/-- JavaScript `Array.prototype.indexOf`: the first matching position, or
`-1` when absent. -/
def jsIndexOf : List String → String → Int
  | [], _ => -1
  | a :: t, x =>
    if a == x then 0
    else
      let r := jsIndexOf t x
      if r = -1 then -1 else r + 1

/-- One element of `_update`'s accumulated `updateData`: a single-cell range
string and the `[[propValue]]` payload. -/
structure CellWrite where
  range : String
  values : List (List JSValue)
deriving DecidableEq, Repr

/-- One remote interaction of an operation, in issue order: a range fetch, a
row append, or a batched cell update. -/
inductive RemoteCall where
  | fetch
  | append (values : List (List String))
  | batchUpdate (data : List CellWrite)
deriving DecidableEq, Repr

/-- What `_update` hands back to its caller: an early `return` without a
value, the `changedItems` array, or a thrown error. -/
inductive UpdateResult where
  | noValue
  | changed (items : List JSRecord)
  | err (msg : String)
deriving DecidableEq, Repr

/-- The inner `for (const prop in values)` loop of `_update` over one
matching record: skip inherited keys, write the patch value onto the
working copy, resolve the field's column (throwing `Bad field` at `-1`),
and accumulate the single-cell write at `sheetName!letters(row+2)`.
Returns the accumulated writes, the updated record copy and the
`updatedSomething` flag. -/
def patchLoop (sheetName : String) (fields : List String) (patch : JSObject)
    (dataRowIndex : Nat) :
    List String → JSRecord → Except String (List CellWrite × JSRecord × Bool)
  | [], updatedDataRow => .ok ([], updatedDataRow, false)
  | prop :: props, updatedDataRow =>
    if !(hasOwnProperty patch prop) then
      patchLoop sheetName fields patch dataRowIndex props updatedDataRow
    else
      let propValue := objGet patch prop
      let updated := setProp updatedDataRow prop propValue
      let columnNumber := jsIndexOf fields prop
      if columnNumber = -1 then
        .error ("Bad field: " ++ prop)
      else
        let columnLetters :=
          zeroBasedColumnNumberToSpreadsheetColumnLetters columnNumber.toNat
        let range := sheetName ++ "!" ++ columnLetters ++ toString (dataRowIndex + 2)
        match patchLoop sheetName fields patch dataRowIndex props updated with
        | .error m => .error m
        | .ok (ws, finalRow, _) => .ok (⟨range, [[propValue]]⟩ :: ws, finalRow, true)

/-- The outer `for (const dataEntry of Object.entries(data))` loop of
`_update`: records are visited in order with their zero-based position;
non-matching records are skipped; a matching record contributes its cell
writes and, when it updated something, its patched copy. -/
def mainLoop (sheetName : String) (fields : List String) (query : Option JSObject)
    (patch : JSObject) :
    Nat → List JSRecord → Except String (List CellWrite × List JSRecord)
  | _, [] => .ok ([], [])
  | dataRowIndex, dataRow :: rest =>
    if !(dataMatchesQuery dataRow query) then
      mainLoop sheetName fields query patch (dataRowIndex + 1) rest
    else
      match patchLoop sheetName fields patch dataRowIndex (forInKeys patch) dataRow with
      | .error m => .error m
      | .ok (ws, updatedDataRow, updatedSomething) =>
        match mainLoop sheetName fields query patch (dataRowIndex + 1) rest with
        | .error m => .error m
        | .ok (ws2, changed2) =>
          .ok (ws ++ ws2, (if updatedSomething then [updatedDataRow] else []) ++ changed2)

/-- Source `_update(query, values)` over the fetched range `rows`, paired
with the ordered remote calls it issues.  `_query()` is called with no
argument, so `data` is every projected record; the `data.length === 0`
short-circuit therefore fires only when the sheet has no data rows at all.
Otherwise `_fields()` is fetched, the loops run (a thrown `Bad field`
aborts before the batch call), and a single `batchUpdate` is issued with
whatever was accumulated, even when that is empty. -/
def updateOp (sheetName : String) (rows : List (List String)) (query : Option JSObject)
    (patch : JSObject) : UpdateResult × List RemoteCall :=
  match rows with
  | [] => (.err "TypeError", [.fetch])
  | header :: rest =>
    let data := queryRecords (setHead header) rest none
    if data.length = 0 then
      (.noValue, [.fetch])
    else
      let fields := setHead header
      match mainLoop sheetName fields query patch 0 data with
      | .error m => (.err m, [.fetch, .fetch])
      | .ok (updateData, changedItems) =>
        (.changed changedItems, [.fetch, .fetch, .batchUpdate updateData])

/-- Four random bytes, as drawn by `crypto.randomBytes(4)`. -/
abbrev Bytes4 := Fin 256 × Fin 256 × Fin 256 × Fin 256

/-- One hexadecimal digit, uppercased (the source hex-encodes and then
applies `toUpperCase()`). -/
def hexDigitUpper (n : Nat) : Char :=
  if n < 10 then Char.ofNat (48 + n) else Char.ofNat (55 + n)

/-- One byte as two uppercase hexadecimal characters. -/
def byteToUpperHex (b : Fin 256) : List Char :=
  [hexDigitUpper (b.val / 16), hexDigitUpper (b.val % 16)]

/-- `randomBytes(4).toString("hex").toUpperCase()` for one draw. -/
def bytesToUpperHex (b : Bytes4) : String :=
  String.mk (byteToUpperHex b.1 ++ byteToUpperHex b.2.1 ++
    byteToUpperHex b.2.2.1 ++ byteToUpperHex b.2.2.2)

/-- An uppercase hexadecimal character: a decimal digit or `A`..`F`. -/
def isUpperHexChar (c : Char) : Bool :=
  c.isDigit || (65 ≤ c.toNat && c.toNat ≤ 70)

/-- Exactly eight uppercase hexadecimal characters. -/
def isHex8Upper (s : String) : Bool :=
  s.length = 8 && s.data.all isUpperHexChar

/-- The `do { proposedId = ... } while (collision)` loop of `_insert`:
`stream` supplies the successive random draws, `pos` the next draw to use,
and `fuel` bounds the retries (the source loops unboundedly; `none` models
the theoretical non-termination the spec documents). -/
def genId (data : List JSRecord) (stream : Nat → Bytes4) :
    Nat → Nat → Option (String × Nat)
  | _, 0 => none
  | pos, fuel + 1 =>
    let proposedId := bytesToUpperHex (stream pos)
    if (data.find? (fun x => strictEq (getProp x "ID") (.str proposedId))).isSome then
      genId data stream (pos + 1) fuel
    else
      some (proposedId, pos + 1)

/-- The argument of `insert`: one record or an array of records, given by
heap address. -/
inductive InsertArg where
  | single (addr : Nat)
  | many (addrs : List Nat)

/-- The `if (!Array.isArray(newData)) newData = [newData]` normalisation. -/
def insertArgList : InsertArg → List Nat
  | .single a => [a]
  | .many l => l

/-- The `for (const newProps of newData)` loop of `_insert`, over a heap of
record objects addressed by natural numbers (JS objects are mutated in
place, so the loop threads an explicit heap): a record whose `ID` reads
`undefined` gets a fresh generated identifier written onto it, every
record is pushed onto the in-memory `data`, and its converted row is
collected in order. -/
def insertLoop (fields : List String) (stream : Nat → Bytes4) (fuel : Nat) :
    (Nat → JSRecord) → List Nat → List JSRecord → Nat →
    Option ((Nat → JSRecord) × List (List String))
  | heap, [], _, _ => some (heap, [])
  | heap, addr :: addrs, data, pos =>
    let newProps := heap addr
    if getProp newProps "ID" = .undef then
      match genId data stream pos fuel with
      | none => none
      | some (proposedId, pos2) =>
        let withId := setProp newProps "ID" (.str proposedId)
        let heap2 := fun a => if a = addr then withId else heap a
        match insertLoop fields stream fuel heap2 addrs (data ++ [withId]) pos2 with
        | none => none
        | some (heap3, rows) => some (heap3, convertObjectToRow fields withId :: rows)
    else
      match insertLoop fields stream fuel heap addrs (data ++ [newProps]) pos with
      | none => none
      | some (heap3, rows) => some (heap3, convertObjectToRow fields newProps :: rows)

/-- Source `_insert(newData)` over the fetched range `rows` and the caller's
heap: fetches data and fields, normalises the argument, runs the loop, and
appends every converted row in one remote call, returning the (possibly
ID-augmented) input records — the same heap addresses that came in. -/
def insertOp (rows : List (List String)) (heap : Nat → JSRecord) (arg : InsertArg)
    (stream : Nat → Bytes4) (fuel : Nat) :
    Option ((Nat → JSRecord) × List Nat × List RemoteCall) :=
  match rows with
  | [] => none
  | header :: rest =>
    let data := queryRecords (setHead header) rest none
    let fields := setHead header
    let newData := insertArgList arg
    match insertLoop fields stream fuel heap newData data 0 with
    | none => none
    | some (heap2, newRows) =>
      some (heap2, newData, [.fetch, .fetch, .append newRows])

/-- The identifiers `insert` generated for a batch: for each address whose
record lacked an `ID` before the call and carries a string `ID` after it,
that string. -/
def assignedIds (heap heap2 : Nat → JSRecord) (addrs : List Nat) : List String :=
  addrs.filterMap (fun a =>
    match getProp (heap a) "ID", getProp (heap2 a) "ID" with
    | .undef, .str s => some s
    | _, _ => none)

/-- Specification-side view of update: the records matching the criteria,
paired with their zero-based data positions starting at `i`. -/
def matchingEntriesFrom (query : Option JSObject) :
    Nat → List JSRecord → List (Nat × JSRecord)
  | _, [] => []
  | i, r :: rs =>
    (if dataMatchesQuery r query then [(i, r)] else []) ++
      matchingEntriesFrom query (i + 1) rs

/-- Specification-side view: a record with every patch field applied. -/
def applyPatch (patch : JSObject) (row : JSRecord) : JSRecord :=
  (ownKeys patch).foldl (fun r k => setProp r k (objGet patch k)) row

/-- Specification-side view: the single-cell writes one matching record at
data position `i` contributes — for each patch field, the cell at that
field's column letters and row `i + 2`. -/
def patchWritesFor (sheetName : String) (fields : List String) (patch : JSObject)
    (i : Nat) : List CellWrite :=
  (ownKeys patch).map (fun k =>
    ⟨sheetName ++ "!" ++
       zeroBasedColumnNumberToSpreadsheetColumnLetters (jsIndexOf fields k).toNat ++
       toString (i + 2),
     [[objGet patch k]]⟩)

/-- Specification-side view: every accumulated cell write of an update, in
record-then-field order. -/
def specWrites (sheetName : String) (fields : List String) (data : List JSRecord)
    (query : Option JSObject) (patch : JSObject) : List CellWrite :=
  (matchingEntriesFrom query 0 data).flatMap
    (fun p => patchWritesFor sheetName fields patch p.1)

/-- Specification-side view: the records an update reports — each matching
record once with the whole patch applied, or none at all under an empty
patch. -/
def specChanged (data : List JSRecord) (query : Option JSObject) (patch : JSObject) :
    List JSRecord :=
  if ownKeys patch = [] then []
  else (matchingEntriesFrom query 0 data).map (fun p => applyPatch patch p.2)

/-- Strict lexicographic order on character lists, by code point. -/
def lexLtB : List Char → List Char → Bool
  | [], [] => false
  | [], _ :: _ => true
  | _ :: _, [] => false
  | a :: as, b :: bs =>
    if a.toNat < b.toNat then true
    else if a = b then lexLtB as bs
    else false

/-- Shortlex (length, then lexicographic) order on character lists: the
order of spreadsheet column labels. -/
def shortlexLt (s t : List Char) : Bool :=
  if s.length < t.length then true
  else if s.length = t.length then lexLtB s t
  else false

/-- Specification-side view of projection: field names zipped against the
row values from position `i` on. -/
def zipFrom (row : List String) : Nat → List String → JSRecord
  | _, [] => []
  | i, n :: ns => (n, rowGet row i) :: zipFrom row (i + 1) ns

/-- A concrete caller heap for closed instances: one record, no `ID`. -/
def wHeap : Nat → JSRecord := fun _ => [("Name", JSValue.str "X")]

/-- A concrete random stream for closed instances: all-zero draws. -/
def wStream : Nat → Bytes4 := fun _ => (0, 0, 0, 0)

/-- The heap `wHeap` after inserting the record at address 0. -/
def wHeap2 : Nat → JSRecord :=
  fun a => if a = 0 then setProp (wHeap 0) "ID" (JSValue.str "00000000") else wHeap a

/-- The remote calls of that concrete insert run. -/
def wCalls : List RemoteCall :=
  [.fetch, .fetch, .append [["00000000", "X"]]]

/-! Basic lemmas about the embedded object model. -/

theorem getOwn_cons (p : String × JSValue) (l : JSRecord) (k : String) :
    getOwn (p :: l) k = if p.1 == k then some p.2 else getOwn l k := by
  by_cases h : p.1 == k <;> simp [getOwn, List.find?_cons, h]

theorem hasKey_cons (p : String × JSValue) (t : JSRecord) (k : String) :
    hasKey (p :: t) k = ((p.1 == k) || hasKey t k) := by
  by_cases h : p.1 == k <;> simp [hasKey, getOwn_cons, h]

theorem hasKey_iff_mem (l : JSRecord) (k : String) :
    hasKey l k = true ↔ k ∈ l.map Prod.fst := by
  induction l with
  | nil => simp [hasKey, getOwn]
  | cons p t ih =>
    rw [hasKey_cons]
    by_cases h : p.1 == k
    · have : p.1 = k := by simpa using h
      simp [h, this]
    · have hne : p.1 ≠ k := by simpa using h
      simp only [h, Bool.false_or, List.map_cons, List.mem_cons, ih]
      exact ⟨Or.inr, fun | Or.inl hm => absurd hm.symm hne | Or.inr hm => hm⟩

theorem setProp_of_not_hasKey (l : JSRecord) (k : String) (v : JSValue)
    (h : hasKey l k = false) : setProp l k v = l ++ [(k, v)] := by
  simp [setProp, h]

theorem setProp_cons_of_ne (p : String × JSValue) (t : JSRecord) (k : String) (v : JSValue)
    (h : (p.1 == k) = false) : setProp (p :: t) k v = p :: setProp t k v := by
  have hne : p.1 ≠ k := by simpa using h
  by_cases ht : hasKey t k
  · have h2 : hasKey (p :: t) k = true := by rw [hasKey_cons, h]; simpa using ht
    simp [setProp, h2, ht, hne]
  · have h2 : hasKey (p :: t) k = false := by
      rw [hasKey_cons, h]; simpa using ht
    simp [setProp, h2, ht]

theorem getOwn_setProp_self (l : JSRecord) (k : String) (v : JSValue) :
    getOwn (setProp l k v) k = some v := by
  induction l with
  | nil => simp [setProp, hasKey, getOwn, getOwn_cons]
  | cons p t ih =>
    by_cases h : p.1 == k
    · have h2 : hasKey (p :: t) k = true := by rw [hasKey_cons, h]; rfl
      have he : p.1 = k := by simpa using h
      simp [setProp, h2, he, getOwn_cons]
    · rw [setProp_cons_of_ne p t k v (by simpa using h), getOwn_cons]
      simp [h, ih]

theorem getProp_setProp_self (l : JSRecord) (k : String) (v : JSValue) :
    getProp (setProp l k v) k = v := by
  simp [getProp, getOwn_setProp_self]

theorem list_all_congr {α : Type} (l : List α) (p₁ p₂ : α → Bool)
    (h : ∀ a ∈ l, p₁ a = p₂ a) : l.all p₁ = l.all p₂ := by
  induction l with
  | nil => rfl
  | cons a t ih =>
    simp only [List.all_cons, h a (by simp)]
    rw [ih (fun b hb => h b (by simp [hb]))]

/-- C2 counterexample: in JavaScript `Number("")` is `0`, so in the code the
empty string does numerically match the number 0 — the claimed
`equal("", 0) = false` fails. -/
theorem areEqual_empty_string_zero :
    areEqual (JSValue.str "") (JSValue.num 0) = true := by decide

/-- C2 amended: the matcher is strict equality or agreement of the numeric
coercions, with the documented examples — except that the empty string
coerces to 0, so `equal("", 0)` is `true` (while `""` still matches `""`
through the strict branch). -/
theorem areEqual_characterization :
    (∀ a b : JSValue, areEqual a b = true ↔
      (strictEq a b = true ∨ ∃ x : Int, toNumber a = some x ∧ toNumber b = some x)) ∧
    areEqual (.str "5") (.num 5) = true ∧
    areEqual (.str "05") (.num 5) = true ∧
    areEqual (.str "abc") (.str "abc") = true ∧
    areEqual .undef .undef = true ∧
    areEqual (.str "") (.str "") = true ∧
    areEqual (.str "") (.num 0) = true := by
  refine ⟨?_, by decide, by decide, by decide, by decide, by decide, by decide⟩
  intro a b
  by_cases h : strictEq a b = true
  · simp [areEqual, h]
  · rw [areEqual, if_neg h]
    cases ha : toNumber a with
    | none =>
      cases hb : toNumber b with
      | none => simp [h]
      | some y => simp [h]
    | some x =>
      cases hb : toNumber b with
      | none => simp [h]
      | some y =>
        show (x == y) = true ↔ _
        simp only [h, Bool.false_eq_true, false_or, beq_iff_eq, Option.some.injEq]
        constructor
        · intro hxy
          exact ⟨x, rfl, hxy.symm⟩
        · rintro ⟨z, hz1, hz2⟩
          rw [← hz1] at hz2
          exact hz2.symm

theorem hasOwnProperty_iff_mem (q : JSObject) (k : String) :
    hasOwnProperty q k = true ↔ k ∈ ownKeys q :=
  hasKey_iff_mem q.own k

theorem objGet_of_own (q : JSObject) (k : String) (h : k ∈ ownKeys q) :
    objGet q k = getProp q.own k := by
  have h1 : hasKey q.own k = true := (hasKey_iff_mem _ _).mpr h
  rcases Option.isSome_iff_exists.mp (by simpa [hasKey] using h1) with ⟨v, hv⟩
  simp [objGet, getProp, hv]

theorem dataMatchesQuery_some (row : JSRecord) (q : JSObject) :
    dataMatchesQuery row (some q) =
      (ownKeys q).all (fun k => areEqual (getProp row k) (getProp q.own k)) := by
  show (forInKeys q).all _ = _
  rw [forInKeys, List.all_append]
  have h2 : ((q.proto.map Prod.fst).filter (fun k => !(ownKeys q).contains k)).all
      (fun prop => if !(hasOwnProperty q prop) then true
        else areEqual (getProp row prop) (objGet q prop)) = true := by
    rw [List.all_eq_true]
    intro k hk
    have hnc : ((ownKeys q).contains k) = false := by
      have := List.of_mem_filter hk
      simpa using this
    have hno : hasOwnProperty q k = false := by
      cases hc : hasOwnProperty q k
      · rfl
      · have hm : k ∈ ownKeys q := (hasOwnProperty_iff_mem q k).mp hc
        have : (ownKeys q).contains k = true := by
          simpa [List.contains] using (List.elem_iff).mpr hm
        rw [this] at hnc
        cases hnc
    simp [hno]
  rw [h2, Bool.and_true]
  apply list_all_congr
  intro k hk
  have h1 : hasOwnProperty q k = true := (hasOwnProperty_iff_mem q k).mpr hk
  simp [h1, objGet_of_own q k hk]

/-- C7: the query filter is the conjunction of the value matcher over the
query's own enumerable keys; null and empty queries match every record,
and fields inherited from the query's prototype never affect the
result. -/
theorem queryFilter_spec :
    (∀ row, dataMatchesQuery row none = true) ∧
    (∀ row proto, dataMatchesQuery row (some ⟨[], proto⟩) = true) ∧
    (∀ row own proto,
      dataMatchesQuery row (some ⟨own, proto⟩) = dataMatchesQuery row (some ⟨own, []⟩)) ∧
    (∀ row q, dataMatchesQuery row (some q) = true ↔
      ∀ k ∈ ownKeys q, areEqual (getProp row k) (objGet q k) = true) := by
  refine ⟨fun row => rfl, ?_, ?_, ?_⟩
  · intro row proto
    rw [dataMatchesQuery_some]
    rfl
  · intro row own proto
    rw [dataMatchesQuery_some, dataMatchesQuery_some]
    rfl
  · intro row q
    rw [dataMatchesQuery_some, List.all_eq_true]
    constructor
    · intro h k hk
      rw [objGet_of_own q k hk]
      exact h k hk
    · intro h k hk
      rw [← objGet_of_own q k hk]
      exact h k hk

theorem letter_toNat (n : Nat) (h : n < 26) : (Char.ofNat (65 + n)).toNat = 65 + n := by
  interval_cases n <;> decide

theorem lexLtB_append_same (c d : Char) (hcd : c.toNat < d.toNat) :
    ∀ s : List Char, lexLtB (s ++ [c]) (s ++ [d]) = true := by
  intro s
  induction s with
  | nil => simp [lexLtB, hcd]
  | cons a t ih =>
    have hlt : ¬ a.toNat < a.toNat := by omega
    simp [lexLtB, hlt, ih]

theorem lexLtB_append_of_lt : ∀ s t : List Char, ∀ c d : Char,
    s.length = t.length → lexLtB s t = true → lexLtB (s ++ [c]) (t ++ [d]) = true := by
  intro s
  induction s with
  | nil =>
    intro t c d hlen h
    cases t with
    | nil => simp [lexLtB] at h
    | cons b bs => simp at hlen
  | cons a as ih =>
    intro t c d hlen h
    cases t with
    | nil => simp at hlen
    | cons b bs =>
      simp only [List.length_cons, Nat.succ.injEq] at hlen
      by_cases h1 : a.toNat < b.toNat
      · simp [lexLtB, h1]
      · by_cases h2 : a = b
        · subst h2
          have hbb : ¬ a.toNat < a.toNat := by omega
          simp only [lexLtB, hbb, if_false, if_pos rfl] at h
          simp only [List.cons_append, lexLtB, hbb, if_false, if_pos rfl]
          exact ih bs c d hlen h
        · simp [lexLtB, h1, h2] at h

theorem shortlexLt_of_length_lt (s t : List Char) (h : s.length < t.length) :
    shortlexLt s t = true := by
  simp [shortlexLt, h]

theorem shortlexLt_append (s t : List Char) (c d : Char)
    (h : shortlexLt s t = true) : shortlexLt (s ++ [c]) (t ++ [d]) = true := by
  by_cases h1 : s.length < t.length
  · apply shortlexLt_of_length_lt
    simp only [List.length_append, List.length_singleton]
    omega
  · by_cases h2 : s.length = t.length
    · rw [shortlexLt, if_neg h1, if_pos h2] at h
      have he : (s ++ [c]).length = (t ++ [d]).length := by simp [h2]
      have hnl : ¬ (s ++ [c]).length < (t ++ [d]).length := by omega
      rw [shortlexLt, if_neg hnl, if_pos he]
      exact lexLtB_append_of_lt s t c d h2 h
    · rw [shortlexLt, if_neg h1, if_neg h2] at h
      cases h

theorem shortlexLt_append_same (s : List Char) (c d : Char) (h : c.toNat < d.toNat) :
    shortlexLt (s ++ [c]) (s ++ [d]) = true := by
  have hl : ¬ (s ++ [c]).length < (s ++ [d]).length := by simp
  have he : (s ++ [c]).length = (s ++ [d]).length := by simp
  rw [shortlexLt, if_neg hl, if_pos he]
  exact lexLtB_append_same c d h s

theorem colLettersAux_ne_nil (n : Nat) : colLettersAux n ≠ [] := by
  by_cases h : n < 26
  · have hd : n / 26 = 0 := Nat.div_eq_of_lt h
    simp [colLettersAux, colLettersGo, hd]
  · have hr : n / 26 ≠ 0 := by omega
    show colLettersGo (n + 1) n ≠ []
    simp [colLettersGo, hr]

theorem colLettersAux_lt26 (n : Nat) (h : n < 26) :
    colLettersAux n = [Char.ofNat (65 + n)] := by
  have hd : n / 26 = 0 := Nat.div_eq_of_lt h
  have hm : n % 26 = n := Nat.mod_eq_of_lt h
  simp [colLettersAux, colLettersGo, hd, hm]

theorem colLettersGo_fuel_irrel : ∀ f1 f2 num, num < f1 → num < f2 →
    colLettersGo f1 num = colLettersGo f2 num := by
  intro f1
  induction f1 with
  | zero => intro f2 num h1 _; omega
  | succ f ih =>
    intro f2 num h1 h2
    cases f2 with
    | zero => omega
    | succ f2 =>
      by_cases hr : num / 26 = 0
      · simp [colLettersGo, hr]
      · have h26 : 26 ≤ num := by omega
        have hlt : num / 26 < num := Nat.div_lt_self (by omega) (by omega)
        simp only [colLettersGo, hr, if_false]
        rw [ih f2 (num / 26 - 1) (by omega) (by omega)]

theorem colLettersAux_ge26 (n : Nat) (h : 26 ≤ n) :
    colLettersAux n = colLettersAux (n / 26 - 1) ++ [Char.ofNat (65 + n % 26)] := by
  have hr : n / 26 ≠ 0 := by omega
  have hlt : n / 26 < n := Nat.div_lt_self (by omega) (by omega)
  show colLettersGo (n + 1) n = _
  simp only [colLettersGo, hr, if_false]
  rw [colLettersGo_fuel_irrel n (n / 26 - 1 + 1) (n / 26 - 1) (by omega) (by omega)]
  rfl

theorem colLetters_shortlex_mono (m : Nat) :
    ∀ n, n < m → shortlexLt (colLettersAux n) (colLettersAux m) = true := by
  induction m using Nat.strong_induction_on with
  | _ m ih =>
    intro n hn
    by_cases hm : m < 26
    · rw [colLettersAux_lt26 n (by omega), colLettersAux_lt26 m hm]
      have ha := letter_toNat n (by omega)
      have hb := letter_toNat m hm
      have hlt : (Char.ofNat (65 + n)).toNat < (Char.ofNat (65 + m)).toNat := by
        rw [ha, hb]; omega
      have := shortlexLt_append_same [] _ _ hlt
      simpa using this
    · by_cases hn26 : n < 26
      · rw [colLettersAux_lt26 n hn26, colLettersAux_ge26 m (by omega)]
        apply shortlexLt_of_length_lt
        have hpos : 0 < (colLettersAux (m / 26 - 1)).length :=
          List.length_pos.mpr (colLettersAux_ne_nil _)
        simp only [List.length_append, List.length_singleton]
        omega
      · have hq : 26 ≤ n := by omega
        rw [colLettersAux_ge26 n hq, colLettersAux_ge26 m (by omega)]
        rcases Nat.lt_or_ge (n / 26) (m / 26) with hqlt | hqge
        · apply shortlexLt_append
          have hm26 : m / 26 < m := Nat.div_lt_self (by omega) (by omega)
          exact ih (m / 26 - 1) (by omega) (n / 26 - 1) (by omega)
        · have hqe : n / 26 = m / 26 := by
            have h1 : n / 26 ≤ m / 26 := Nat.div_le_div_right (by omega)
            omega
          have hrlt : n % 26 < m % 26 := by omega
          rw [hqe]
          apply shortlexLt_append_same
          rw [letter_toNat (n % 26) (by omega), letter_toNat (m % 26) (by omega)]
          omega

theorem string_mk_append (l1 l2 : List Char) :
    String.mk (l1 ++ l2) = String.mk l1 ++ String.mk l2 := rfl

/-- C6: the column-letter codec follows the bijective base-26 recursion
(last letter from `index mod 26`, prefix from `floor(index/26) - 1`,
stopping at quotient 0), produces the expected labels at the boundary
indices, and is strictly monotonic (in shortlex order, the order of
spreadsheet columns) with the index. -/
theorem codec_spec :
    (zeroBasedColumnNumberToSpreadsheetColumnLetters 0 = "A" ∧
     zeroBasedColumnNumberToSpreadsheetColumnLetters 25 = "Z" ∧
     zeroBasedColumnNumberToSpreadsheetColumnLetters 26 = "AA" ∧
     zeroBasedColumnNumberToSpreadsheetColumnLetters 701 = "ZZ" ∧
     zeroBasedColumnNumberToSpreadsheetColumnLetters 702 = "AAA") ∧
    (∀ n : Nat, n < 26 →
      zeroBasedColumnNumberToSpreadsheetColumnLetters n =
        String.mk [Char.ofNat (65 + n % 26)]) ∧
    (∀ n : Nat, 26 ≤ n →
      zeroBasedColumnNumberToSpreadsheetColumnLetters n =
        zeroBasedColumnNumberToSpreadsheetColumnLetters (n / 26 - 1) ++
          String.mk [Char.ofNat (65 + n % 26)]) ∧
    (∀ n m : Nat, n < m →
      shortlexLt (zeroBasedColumnNumberToSpreadsheetColumnLetters n).data
        (zeroBasedColumnNumberToSpreadsheetColumnLetters m).data = true) := by
  refine ⟨⟨by decide, by decide, by decide, by decide, by decide⟩, ?_, ?_, ?_⟩
  · intro n h
    rw [zeroBasedColumnNumberToSpreadsheetColumnLetters, colLettersAux_lt26 n h,
      Nat.mod_eq_of_lt h]
  · intro n h
    rw [zeroBasedColumnNumberToSpreadsheetColumnLetters, colLettersAux_ge26 n h,
      string_mk_append]
    rfl
  · intro n m h
    exact colLetters_shortlex_mono m n h

theorem jsIndexOf_ge (l : List String) (x : String) : -1 ≤ jsIndexOf l x := by
  induction l with
  | nil => simp [jsIndexOf]
  | cons a t ih =>
    rw [jsIndexOf]
    by_cases h : a == x
    · simp [h]
    · simp only [h, if_false]
      by_cases hr : jsIndexOf t x = -1 <;> simp [hr] <;> omega

theorem jsIndexOf_eq_neg_one_iff (l : List String) (x : String) :
    jsIndexOf l x = -1 ↔ x ∉ l := by
  induction l with
  | nil => simp [jsIndexOf]
  | cons a t ih =>
    rw [jsIndexOf]
    by_cases h : a == x
    · have he : a = x := by simpa using h
      simp [h, he]
    · have hne : a ≠ x := by simpa using h
      by_cases hr : jsIndexOf t x = -1
      · simp only [h, if_false, hr, if_true, List.mem_cons]
        have hx : x ∉ t := ih.mp hr
        refine ⟨fun _ => ?_, fun _ => rfl⟩
        rintro (h1 | h2)
        · exact hne h1.symm
        · exact hx h2
      · have hge := jsIndexOf_ge t x
        have hpos : 0 ≤ jsIndexOf t x := by omega
        simp only [h, if_false, hr, if_true, List.mem_cons]
        constructor
        · intro hc; omega
        · intro hc
          exfalso
          apply hc
          right
          by_contra hnx
          exact hr (ih.mpr hnx)

theorem jsIndexOf_first_match : ∀ (l : List String) (x : String) (i : Nat),
    jsIndexOf l x = Int.ofNat i →
    l.get? i = some x ∧ ∀ j < i, l.get? j ≠ some x := by
  intro l
  induction l with
  | nil =>
    intro x i h
    rw [jsIndexOf] at h
    cases h
  | cons a t ih =>
    intro x i h
    rw [jsIndexOf] at h
    by_cases ha : a == x
    · have he : a = x := by simpa using ha
      rw [if_pos ha] at h
      have hcast : Int.ofNat i = (i : Int) := rfl
      rw [hcast] at h
      have hi : i = 0 := by omega
      subst hi
      exact ⟨by simp [he], fun j hj => absurd hj (by omega)⟩
    · rw [if_neg ha] at h
      have hne : a ≠ x := by simpa using ha
      by_cases hr : jsIndexOf t x = -1
      · simp only [hr, if_true] at h
        cases h
      · simp only [hr, if_false] at h
        have hge := jsIndexOf_ge t x
        have hpos : 0 ≤ jsIndexOf t x := by omega
        obtain ⟨i2, hi2⟩ := Int.eq_ofNat_of_zero_le hpos
        rw [hi2] at h
        have hcast : Int.ofNat i = (i : Int) := rfl
        rw [hcast] at h
        have hii : i = i2 + 1 := by omega
        subst hii
        obtain ⟨hget, hfirst⟩ := ih x i2 hi2
        refine ⟨by simpa using hget, ?_⟩
        intro j hj
        cases j with
        | zero =>
          simp only [List.get?]
          intro hc
          exact hne (by simpa using hc)
        | succ j2 =>
          simp only [List.get?]
          exact hfirst j2 (by omega)

/-- C9: on every read the field list is the fetched header row with
position 0 forcibly renamed to the reserved name `"ID"` regardless of the
physical cell content, its length equals the number of header columns, and
field lookup by name resolves to the first-match position. -/
theorem fields_invariant :
    (∀ (h0 : String) (t : List String) (rest : List (List String)),
      fieldsOp ((h0 :: t) :: rest) = some ("ID" :: t)) ∧
    (∀ header : List String, header ≠ [] → (setHead header).length = header.length) ∧
    (∀ header : List String, (setHead header).get? 0 = some "ID") ∧
    (∀ (l : List String) (x : String) (i : Nat), jsIndexOf l x = Int.ofNat i →
      l.get? i = some x ∧ ∀ j < i, l.get? j ≠ some x) := by
  refine ⟨fun h0 t rest => rfl, ?_, ?_, jsIndexOf_first_match⟩
  · intro header hne
    cases header with
    | nil => exact absurd rfl hne
    | cons h0 t => rfl
  · intro header
    cases header <;> rfl

theorem queryRecords_acc (fields : List String) (q : Option JSObject) :
    ∀ (rows : List (List String)) (acc : List JSRecord),
      rows.foldl (fun accum row =>
        let newItem := projectRecord fields row
        if dataMatchesQuery newItem q then accum ++ [newItem] else accum) acc
      = acc ++ rows.foldl (fun accum row =>
          let newItem := projectRecord fields row
          if dataMatchesQuery newItem q then accum ++ [newItem] else accum) [] := by
  intro rows
  induction rows with
  | nil => intro acc; simp
  | cons r rs ih =>
    intro acc
    rw [List.foldl_cons, List.foldl_cons]
    by_cases h : dataMatchesQuery (projectRecord fields r) q
    · simp only [h, if_true]
      rw [ih (acc ++ [projectRecord fields r]), ih ([] ++ [projectRecord fields r])]
      simp
    · simp only [h, Bool.false_eq_true, if_false]
      exact ih acc

theorem queryRecords_cons (fields : List String) (r : List String)
    (rs : List (List String)) (q : Option JSObject) :
    queryRecords fields (r :: rs) q =
      (if dataMatchesQuery (projectRecord fields r) q
       then [projectRecord fields r] else []) ++ queryRecords fields rs q := by
  rw [queryRecords, List.foldl_cons]
  by_cases h : dataMatchesQuery (projectRecord fields r) q
  · simp only [h, if_true]
    rw [queryRecords_acc]
    rfl
  · simp only [h, if_false]
    rfl

theorem queryRecords_none_eq_map (fields : List String) :
    ∀ rows, queryRecords fields rows none = rows.map (projectRecord fields) := by
  intro rows
  induction rows with
  | nil => rfl
  | cons r rs ih =>
    rw [queryRecords_cons, ih]
    simp [dataMatchesQuery]

theorem mainLoop_no_match (sheetName : String) (fields : List String)
    (query : Option JSObject) (patch : JSObject) :
    ∀ (data : List JSRecord) (i : Nat), (∀ r ∈ data, dataMatchesQuery r query = false) →
      mainLoop sheetName fields query patch i data = .ok ([], []) := by
  intro data
  induction data with
  | nil => intro i _; rfl
  | cons r rs ih =>
    intro i h
    rw [mainLoop]
    have hr : dataMatchesQuery r query = false := h r (by simp)
    simp only [hr, Bool.not_false, if_true]
    exact ih (i + 1) (fun x hx => h x (by simp [hx]))

/-- C1 amended: the short-circuit (`data.length === 0`) fires only when the
sheet has no data rows at all, because `_update` fetches the record set
without the criteria; it then makes one fetch and returns without a value.
When data rows exist but none match the criteria, the field list is still
fetched, one batched update call containing zero cell writes is still
issued, and the empty record list is returned. -/
theorem update_zero_match_behavior (sheetName : String) (header : List String)
    (rest : List (List String)) (query : Option JSObject) (patch : JSObject)
    (hnm : ∀ row ∈ rest,
      dataMatchesQuery (projectRecord (setHead header) row) query = false) :
    (rest = [] →
      updateOp sheetName (header :: rest) query patch = (.noValue, [.fetch])) ∧
    (rest ≠ [] →
      updateOp sheetName (header :: rest) query patch =
        (.changed [], [.fetch, .fetch, .batchUpdate []])) := by
  constructor
  · intro he; subst he; rfl
  · intro hne
    have hdata : queryRecords (setHead header) rest none =
        rest.map (projectRecord (setHead header)) :=
      queryRecords_none_eq_map _ rest
    have hlen : ¬ (queryRecords (setHead header) rest none).length = 0 := by
      rw [hdata]
      simpa using hne
    have hml : mainLoop sheetName (setHead header) query patch 0
        (queryRecords (setHead header) rest none) = .ok ([], []) := by
      apply mainLoop_no_match
      intro r hr
      rw [hdata] at hr
      rcases List.mem_map.mp hr with ⟨row, hrow, rfl⟩
      exact hnm row hrow
    simp only [updateOp, hlen, if_false, hml]

/-- C1 counterexample: a sheet with one data row and criteria matching
nothing.  The operation does not short-circuit: it fetches the field list,
issues one batched update call containing zero cell writes, and returns the
empty array — not "no value". -/
theorem update_zero_match_counterexample :
    queryRecords (setHead ["id", "Status"]) [["AB12", "open"]]
        (some ⟨[("ID", JSValue.str "none")], []⟩) = [] ∧
    updateOp "Sheet1" [["id", "Status"], ["AB12", "open"]]
        (some ⟨[("ID", JSValue.str "none")], []⟩) ⟨[("Status", JSValue.str "x")], []⟩
      = (.changed [], [.fetch, .fetch, .batchUpdate []]) ∧
    UpdateResult.changed [] ≠ UpdateResult.noValue := by
  exact ⟨by decide, by decide, by decide⟩

/-- Closed instance of the amended C1 theorem. -/
theorem update_zero_match_witness :
    updateOp "Sheet1" [["id", "Status"], ["AB12", "open"]]
        (some ⟨[("ID", JSValue.str "nomatch")], []⟩) ⟨[("Status", JSValue.str "x")], []⟩
      = (.changed [], [.fetch, .fetch, .batchUpdate []]) :=
  (update_zero_match_behavior "Sheet1" ["id", "Status"] [["AB12", "open"]]
    (some ⟨[("ID", JSValue.str "nomatch")], []⟩) ⟨[("Status", JSValue.str "x")], []⟩
    (by decide)).2 (by decide)

theorem filter_forIn_own (patch : JSObject) :
    (forInKeys patch).filter (fun k => hasOwnProperty patch k) = ownKeys patch := by
  rw [forInKeys, List.filter_append]
  have h1 : (ownKeys patch).filter (fun k => hasOwnProperty patch k) = ownKeys patch :=
    List.filter_eq_self.mpr (fun k hk => (hasOwnProperty_iff_mem patch k).mpr hk)
  have h2 : ((patch.proto.map Prod.fst).filter
      (fun k => !(ownKeys patch).contains k)).filter
      (fun k => hasOwnProperty patch k) = [] := by
    rw [List.filter_eq_nil]
    intro k hk
    have hnc : ((ownKeys patch).contains k) = false := by
      simpa using List.of_mem_filter hk
    intro hc
    have hm : k ∈ ownKeys patch := (hasOwnProperty_iff_mem patch k).mp hc
    have : (ownKeys patch).contains k = true := by
      simpa [List.contains] using (List.elem_iff).mpr hm
    rw [this] at hnc
    cases hnc
  rw [h1, h2, List.append_nil]

theorem patchLoop_ok (sheetName : String) (fields : List String) (patch : JSObject)
    (i : Nat) :
    ∀ (props : List String) (row : JSRecord),
      (∀ k ∈ props, hasOwnProperty patch k = true → k ∈ fields) →
      patchLoop sheetName fields patch i props row = .ok
        ((props.filter (fun k => hasOwnProperty patch k)).map (fun k =>
          ⟨sheetName ++ "!" ++
            zeroBasedColumnNumberToSpreadsheetColumnLetters (jsIndexOf fields k).toNat ++
            toString (i + 2), [[objGet patch k]]⟩),
         (props.filter (fun k => hasOwnProperty patch k)).foldl
           (fun r k => setProp r k (objGet patch k)) row,
         !(props.filter (fun k => hasOwnProperty patch k)).isEmpty) := by
  intro props
  induction props with
  | nil => intro row _; rfl
  | cons prop ps ih =>
    intro row hval
    rw [patchLoop]
    cases hown : hasOwnProperty patch prop with
    | false =>
      simp only [hown, Bool.not_false, if_true]
      rw [ih row (fun k hk h2 => hval k (by simp [hk]) h2)]
      simp [List.filter_cons, hown]
    | true =>
      simp only [hown, Bool.not_true, if_false]
      have hmem : prop ∈ fields := hval prop (by simp) hown
      have hne : ¬ jsIndexOf fields prop = -1 := by
        rw [jsIndexOf_eq_neg_one_iff]
        simpa using hmem
      rw [if_neg hne]
      rw [ih (setProp row prop (objGet patch prop)) (fun k hk h2 => hval k (by simp [hk]) h2)]
      simp [List.filter_cons, hown]

theorem mainLoop_ok (sheetName : String) (fields : List String)
    (query : Option JSObject) (patch : JSObject)
    (hvalid : ∀ k ∈ ownKeys patch, k ∈ fields) :
    ∀ (data : List JSRecord) (i : Nat),
      mainLoop sheetName fields query patch i data = .ok
        ((matchingEntriesFrom query i data).flatMap
          (fun p => patchWritesFor sheetName fields patch p.1),
         (matchingEntriesFrom query i data).flatMap
          (fun p => if ownKeys patch = [] then [] else [applyPatch patch p.2])) := by
  intro data
  induction data with
  | nil => intro i; rfl
  | cons r rs ih =>
    intro i
    rw [mainLoop, matchingEntriesFrom]
    cases hm : dataMatchesQuery r query with
    | false =>
      simp only [hm, Bool.not_false, if_true, if_false, List.nil_append]
      exact ih (i + 1)
    | true =>
      simp only [hm, Bool.not_true, if_false, if_true]
      have hpl := patchLoop_ok sheetName fields patch i (forInKeys patch) r
        (fun k _ h2 => hvalid k ((hasOwnProperty_iff_mem patch k).mp h2))
      rw [filter_forIn_own] at hpl
      rw [hpl, ih (i + 1)]
      simp only [List.flatMap_cons]
      cases hk : ownKeys patch with
      | nil => simp [hk, patchWritesFor, applyPatch]
      | cons a t => simp [hk, patchWritesFor, applyPatch]

theorem flatMap_if_nil {α : Type} (l : List (Nat × JSRecord)) (c : Prop) [Decidable c]
    (g : Nat × JSRecord → α) :
    (l.flatMap (fun p => if c then [] else [g p])) = if c then [] else l.map g := by
  by_cases h : c
  · simp [h]
  · simp only [h, if_false]
    induction l with
    | nil => rfl
    | cons a t ih => simp [ih]

/-- C3: over a nonempty data set and a patch whose fields all resolve in the
field list, update accumulates one single-cell write per (matching record,
patch field) pair — addressed at the field's column letters and the
record's zero-based position plus 2 — issues exactly one batched update
call carrying all of them, and reports exactly the matching records that
had at least one field written, each once with the whole patch applied
(none at all under an empty patch). -/
theorem update_accumulation_spec (sheetName : String) (header : List String)
    (rest : List (List String)) (query : Option JSObject) (patch : JSObject)
    (h1 : rest ≠ [])
    (h2 : ∀ k ∈ ownKeys patch, k ∈ setHead header) :
    updateOp sheetName (header :: rest) query patch =
      (.changed (specChanged (rest.map (projectRecord (setHead header))) query patch),
       [.fetch, .fetch,
        .batchUpdate (specWrites sheetName (setHead header)
          (rest.map (projectRecord (setHead header))) query patch)]) := by
  have hdata : queryRecords (setHead header) rest none =
      rest.map (projectRecord (setHead header)) :=
    queryRecords_none_eq_map _ rest
  have hlen : ¬ (queryRecords (setHead header) rest none).length = 0 := by
    rw [hdata]
    simpa using h1
  have hml := mainLoop_ok sheetName (setHead header) query patch h2
    (queryRecords (setHead header) rest none) 0
  rw [hdata] at hml
  have hlen2 : ¬ (List.map (projectRecord (setHead header)) rest).length = 0 := by
    rw [← hdata]
    exact hlen
  simp only [updateOp, hdata, hml]
  rw [if_neg hlen2]
  rw [specWrites, specChanged, flatMap_if_nil]

/-- Closed instance of the C3 theorem: one matching record, patch on the
`Status` column (position 1, letters `B`), write lands at `S!B2`. -/
theorem update_accumulation_witness :
    updateOp "S" [["id", "Status"], ["AB12", "open"]]
        (some ⟨[("ID", JSValue.str "AB12")], []⟩) ⟨[("Status", JSValue.str "closed")], []⟩
      = (.changed [[("ID", JSValue.str "AB12"), ("Status", JSValue.str "closed")]],
         [.fetch, .fetch, .batchUpdate [⟨"S!B2", [[JSValue.str "closed"]]⟩]]) := by
  rw [update_accumulation_spec "S" ["id", "Status"] [["AB12", "open"]]
    (some ⟨[("ID", JSValue.str "AB12")], []⟩) ⟨[("Status", JSValue.str "closed")], []⟩
    (by decide) (by decide)]
  decide

theorem patchLoop_error (sheetName : String) (fields : List String) (patch : JSObject)
    (i : Nat) :
    ∀ (props : List String) (row : JSRecord),
      (∃ k ∈ props, hasOwnProperty patch k = true ∧ k ∉ fields) →
      ∃ m, patchLoop sheetName fields patch i props row = .error m := by
  intro props
  induction props with
  | nil =>
    intro row hex
    rcases hex with ⟨k, hk, -⟩
    cases hk
  | cons prop ps ih =>
    intro row hex
    rcases hex with ⟨k, hk, hown, hnf⟩
    cases hp : hasOwnProperty patch prop with
    | false =>
      have hkps : k ∈ ps := by
        rcases List.mem_cons.mp hk with h | h
        · subst h; rw [hp] at hown; cases hown
        · exact h
      rcases ih row ⟨k, hkps, hown, hnf⟩ with ⟨m, hm⟩
      refine ⟨m, ?_⟩
      rw [patchLoop]
      simp only [hp, Bool.not_false, if_true]
      exact hm
    | true =>
      by_cases hidx : jsIndexOf fields prop = -1
      · refine ⟨"Bad field: " ++ prop, ?_⟩
        rw [patchLoop]
        simp only [hp, Bool.not_true, if_false, hidx, if_pos]
        rfl
      · have hpf : prop ∈ fields := by
          by_contra hne
          exact hidx ((jsIndexOf_eq_neg_one_iff fields prop).mpr hne)
        have hkps : k ∈ ps := by
          rcases List.mem_cons.mp hk with h | h
          · subst h; exact absurd hpf hnf
          · exact h
        rcases ih (setProp row prop (objGet patch prop)) ⟨k, hkps, hown, hnf⟩ with ⟨m, hm⟩
        refine ⟨m, ?_⟩
        rw [patchLoop]
        simp only [hp, Bool.not_true, Bool.false_eq_true, if_false]
        rw [if_neg hidx]
        simp only [hm]

theorem mainLoop_error (sheetName : String) (fields : List String)
    (query : Option JSObject) (patch : JSObject)
    (hbad : ∃ k ∈ ownKeys patch, k ∉ fields) :
    ∀ (data : List JSRecord) (i : Nat),
      (∃ r ∈ data, dataMatchesQuery r query = true) →
      ∃ m, mainLoop sheetName fields query patch i data = .error m := by
  intro data
  induction data with
  | nil =>
    intro i hex
    rcases hex with ⟨r, hr, -⟩
    cases hr
  | cons r rs ih =>
    intro i hex
    cases hm : dataMatchesQuery r query with
    | true =>
      rcases hbad with ⟨k, hk, hnf⟩
      have hfi : k ∈ forInKeys patch := by
        rw [forInKeys]
        exact List.mem_append_left _ hk
      have hown : hasOwnProperty patch k = true := (hasOwnProperty_iff_mem patch k).mpr hk
      rcases patchLoop_error sheetName fields patch i (forInKeys patch) r
        ⟨k, hfi, hown, hnf⟩ with ⟨m, hpe⟩
      refine ⟨m, ?_⟩
      rw [mainLoop]
      simp only [hm, Bool.not_true, Bool.false_eq_true, if_false, hpe]
    | false =>
      have hex2 : ∃ r2 ∈ rs, dataMatchesQuery r2 query = true := by
        rcases hex with ⟨r2, hr2, hmr2⟩
        rcases List.mem_cons.mp hr2 with h | h
        · subst h; rw [hm] at hmr2; cases hmr2
        · exact ⟨r2, h, hmr2⟩
      rcases ih (i + 1) hex2 with ⟨m, hmm⟩
      refine ⟨m, ?_⟩
      rw [mainLoop]
      simp only [hm, Bool.not_false, if_true]
      exact hmm

/-- C4 amended: the unknown-field check runs only while processing records
that match the criteria, so update fails fast with the `Bad field` error —
before issuing any remote write, with only the two fetches performed — as
soon as at least one record matches; with no matching record the unknown
patch field goes undetected. -/
theorem update_unknown_field_spec (sheetName : String) (header : List String)
    (rest : List (List String)) (query : Option JSObject) (patch : JSObject)
    (hmatch : ∃ row ∈ rest,
      dataMatchesQuery (projectRecord (setHead header) row) query = true)
    (hbad : ∃ k ∈ ownKeys patch, k ∉ setHead header) :
    ∃ msg, updateOp sheetName (header :: rest) query patch =
      (.err msg, [.fetch, .fetch]) := by
  have hdata : queryRecords (setHead header) rest none =
      rest.map (projectRecord (setHead header)) :=
    queryRecords_none_eq_map _ rest
  have hexd : ∃ r ∈ List.map (projectRecord (setHead header)) rest,
      dataMatchesQuery r query = true := by
    rcases hmatch with ⟨row, hrow, hmr⟩
    exact ⟨projectRecord (setHead header) row, List.mem_map_of_mem _ hrow, hmr⟩
  have hlen2 : ¬ (List.map (projectRecord (setHead header)) rest).length = 0 := by
    rcases hexd with ⟨r, hr, -⟩
    intro h0
    rw [List.length_eq_zero] at h0
    rw [h0] at hr
    cases hr
  rcases mainLoop_error sheetName (setHead header) query patch hbad
    (List.map (projectRecord (setHead header)) rest) 0 hexd with ⟨m, hmm⟩
  refine ⟨m, ?_⟩
  simp only [updateOp, hdata, hmm]
  rw [if_neg hlen2]

/-- C4 counterexample: with a patch naming the unknown field `Bogus` but
criteria matching no record, the code raises no error at all — it issues a
batched update call with zero writes and returns the empty array. -/
theorem update_unknown_field_counterexample :
    updateOp "Sheet1" [["id", "Status"], ["AB12", "open"]]
        (some ⟨[("ID", JSValue.str "none")], []⟩) ⟨[("Bogus", JSValue.str "x")], []⟩
      = (.changed [], [.fetch, .fetch, .batchUpdate []]) ∧
    ("Bogus" ∉ setHead ["id", "Status"]) := by
  exact ⟨by decide, by decide⟩

/-- Closed instance of the amended C4 theorem. -/
theorem update_unknown_field_witness :
    ∃ msg, updateOp "Sheet1" [["id", "Status"], ["AB12", "open"]]
        (some ⟨[("ID", JSValue.str "AB12")], []⟩) ⟨[("Bogus", JSValue.str "x")], []⟩
      = (.err msg, [.fetch, .fetch]) :=
  update_unknown_field_spec "Sheet1" ["id", "Status"] [["AB12", "open"]]
    (some ⟨[("ID", JSValue.str "AB12")], []⟩) ⟨[("Bogus", JSValue.str "x")], []⟩
    (by decide) (by decide)

theorem hasKey_append (l1 l2 : JSRecord) (k : String) :
    hasKey (l1 ++ l2) k = (hasKey l1 k || hasKey l2 k) := by
  rw [hasKey, hasKey, hasKey, getOwn, getOwn, getOwn, List.find?_append]
  cases List.find? (fun p => p.1 == k) l1 <;> simp

theorem getProp_cons_self (f : String) (v : JSValue) (l : JSRecord) :
    getProp ((f, v) :: l) f = v := by
  simp [getProp, getOwn_cons]

theorem getProp_cons_ne (f g : String) (v : JSValue) (l : JSRecord) (h : f ≠ g) :
    getProp ((f, v) :: l) g = getProp l g := by
  have hb : (f == g) = false := by simpa using h
  simp [getProp, getOwn_cons, hb]

theorem projectRecordAux_eq_zip (row : List String) :
    ∀ (names : List String) (i : Nat) (obj : JSRecord),
      names.Nodup → (∀ n ∈ names, hasKey obj n = false) →
      projectRecordAux row i names obj = obj ++ zipFrom row i names := by
  intro names
  induction names with
  | nil => intro i obj _ _; simp [projectRecordAux, zipFrom]
  | cons n ns ih =>
    intro i obj hnd hfresh
    rcases List.nodup_cons.mp hnd with ⟨hn, hnd2⟩
    rw [projectRecordAux, setProp_of_not_hasKey obj n (rowGet row i) (hfresh n (by simp))]
    rw [ih (i + 1) (obj ++ [(n, rowGet row i)]) hnd2 ?_]
    · rw [zipFrom, List.append_assoc]
      rfl
    · intro m hm
      rw [hasKey_append, hfresh m (by simp [hm]), Bool.false_or]
      have hmn : (n == m) = false := by
        have : n ≠ m := fun he => hn (he ▸ hm)
        simpa using this
      simp [hasKey, getOwn, List.find?_cons, hmn]

theorem projectRecord_eq_zip (fields : List String) (row : List String)
    (hnd : fields.Nodup) : projectRecord fields row = zipFrom row 0 fields := by
  rw [projectRecord, projectRecordAux_eq_zip row fields 0 [] hnd (fun n _ => rfl)]
  rfl

theorem zipFrom_shift (row : List String) :
    ∀ (ns : List String) (i : Nat), zipFrom row (i + 1) ns = zipFrom (row.drop 1) i ns := by
  intro ns
  induction ns with
  | nil => intro i; rfl
  | cons n ns2 ih =>
    intro i
    rw [zipFrom, zipFrom, ih (i + 1)]
    have : rowGet row (i + 1) = rowGet (row.drop 1) i := by
      rw [rowGet, rowGet, List.get?_drop, Nat.add_comm 1 i]
    rw [this]

theorem convert_cons_skip (fs : List String) (f : String) (v : JSValue) (Z : JSRecord)
    (h : f ∉ fs) :
    convertObjectToRow fs ((f, v) :: Z) = convertObjectToRow fs Z := by
  rw [convertObjectToRow, convertObjectToRow]
  apply List.map_congr_left
  intro g hg
  rw [getProp_cons_ne f g v Z (fun he => h (he ▸ hg))]

theorem roundTrip_aux : ∀ (fields : List String) (row : List String),
    fields.Nodup → row.length ≤ fields.length →
    convertObjectToRow fields (zipFrom row 0 fields)
      = row.map jsTrim ++ List.replicate (fields.length - row.length) "" := by
  intro fields
  induction fields with
  | nil =>
    intro row _ hlen
    cases row with
    | nil => rfl
    | cons c cs => simp at hlen
  | cons f fs ih =>
    intro row hnd hlen
    rcases List.nodup_cons.mp hnd with ⟨hf, hnd2⟩
    cases row with
    | nil =>
      rw [zipFrom, zipFrom_shift]
      have hz : rowGet [] 0 = JSValue.undef := rfl
      rw [hz]
      rw [convertObjectToRow, List.map_cons]
      rw [← convertObjectToRow]
      rw [convert_cons_skip fs f JSValue.undef _ hf]
      have hdrop : (([] : List String).drop 1) = [] := rfl
      rw [hdrop]
      rw [ih [] hnd2 (by simp)]
      simp [getProp_cons_self, List.replicate_succ]
    | cons c cs =>
      rw [zipFrom, zipFrom_shift]
      have hz : rowGet (c :: cs) 0 = JSValue.str c := rfl
      rw [hz]
      have hdrop : ((c :: cs).drop 1) = cs := rfl
      rw [hdrop]
      rw [convertObjectToRow, List.map_cons, ← convertObjectToRow]
      rw [convert_cons_skip fs f (JSValue.str c) _ hf]
      rw [ih cs hnd2 (by simpa using hlen)]
      simp [getProp_cons_self]

/-- C8 amended: projecting a header+rows block to records and back with the
same field list reproduces the rows up to stringification/trim — and pads
short rows with empty strings — provided the (renamed) field list contains
no duplicate names; with duplicated names a later column overwrites the
earlier one in the record, and the round trip fails. -/
theorem projector_roundtrip (header : List String) (row : List String)
    (hnd : (setHead header).Nodup) (hlen : row.length ≤ (setHead header).length) :
    convertObjectToRow (setHead header) (projectRecord (setHead header) row)
      = row.map jsTrim ++ List.replicate ((setHead header).length - row.length) "" := by
  rw [projectRecord_eq_zip _ row hnd]
  exact roundTrip_aux _ row hnd hlen

/-- C8 counterexample: a block whose header has two columns with the same
name (after the rename): the row `["1","a","b"]` projects and converts
back to `["1","b","b"]`, not to itself. -/
theorem projector_roundtrip_counterexample :
    convertObjectToRow (setHead ["x", "X", "X"])
        (projectRecord (setHead ["x", "X", "X"]) ["1", "a", "b"]) = ["1", "b", "b"] ∧
    ["1", "a", "b"].map jsTrim ++
        List.replicate ((setHead ["x", "X", "X"]).length - 3) "" = ["1", "a", "b"] ∧
    (["1", "b", "b"] : List String) ≠ ["1", "a", "b"] := by
  exact ⟨by decide, by decide, by decide⟩

/-- Closed instance of the amended C8 theorem: sparse row, trimming. -/
theorem projector_roundtrip_witness :
    convertObjectToRow (setHead ["id", "Name", "Status"])
        (projectRecord (setHead ["id", "Name", "Status"]) ["1", " a "])
      = [jsTrim "1", jsTrim " a "] ++ List.replicate 1 "" :=
  projector_roundtrip ["id", "Name", "Status"] ["1", " a "] (by decide) (by decide)

theorem genId_sound (data : List JSRecord) (stream : Nat → Bytes4) :
    ∀ (fuel pos : Nat) (id : String) (pos2 : Nat),
      genId data stream pos fuel = some (id, pos2) →
      (∃ k, id = bytesToUpperHex (stream k)) ∧
      ∀ r ∈ data, strictEq (getProp r "ID") (.str id) = false := by
  intro fuel
  induction fuel with
  | zero => intro pos id pos2 h; cases h
  | succ f ih =>
    intro pos id pos2 h
    simp only [genId] at h
    by_cases hc : (data.find?
        (fun x => strictEq (getProp x "ID") (.str (bytesToUpperHex (stream pos))))).isSome
    · rw [if_pos hc] at h
      exact ih (pos + 1) id pos2 h
    · rw [if_neg hc] at h
      simp only [Option.some.injEq, Prod.mk.injEq] at h
      obtain ⟨h1, -⟩ := h
      subst h1
      refine ⟨⟨pos, rfl⟩, ?_⟩
      intro r hr
      have hnone : data.find?
          (fun x => strictEq (getProp x "ID") (.str (bytesToUpperHex (stream pos)))) = none := by
        cases hfind : data.find?
            (fun x => strictEq (getProp x "ID") (.str (bytesToUpperHex (stream pos)))) with
        | none => rfl
        | some x => rw [hfind] at hc; simp at hc
      have := List.find?_eq_none.mp hnone r hr
      simpa using this

theorem byteToUpperHex_all : ∀ b : Fin 256,
    (byteToUpperHex b).length = 2 ∧ ((byteToUpperHex b).all isUpperHexChar) = true := by
  decide

theorem bytesToUpperHex_hex8 (b : Bytes4) : isHex8Upper (bytesToUpperHex b) = true := by
  obtain ⟨b1, b2, b3, b4⟩ := b
  have h1 := byteToUpperHex_all b1
  have h2 := byteToUpperHex_all b2
  have h3 := byteToUpperHex_all b3
  have h4 := byteToUpperHex_all b4
  have hlen : (byteToUpperHex b1 ++ byteToUpperHex b2 ++ byteToUpperHex b3 ++
      byteToUpperHex b4).length = 8 := by
    simp only [List.length_append, h1.1, h2.1, h3.1, h4.1]
  have hall : ((byteToUpperHex b1 ++ byteToUpperHex b2 ++ byteToUpperHex b3 ++
      byteToUpperHex b4).all isUpperHexChar) = true := by
    simp only [List.all_append, h1.2, h2.2, h3.2, h4.2, Bool.and_self]
  rw [isHex8Upper, bytesToUpperHex, Bool.and_eq_true, decide_eq_true_eq]
  exact ⟨hlen, hall⟩

theorem assignedIds_nil (heap heap2 : Nat → JSRecord) :
    assignedIds heap heap2 [] = [] := rfl

theorem assignedIds_cons_undef (heap heap2 : Nat → JSRecord) (addr : Nat)
    (addrs : List Nat) (s : String)
    (h1 : getProp (heap addr) "ID" = .undef)
    (h2 : getProp (heap2 addr) "ID" = .str s) :
    assignedIds heap heap2 (addr :: addrs) = s :: assignedIds heap heap2 addrs := by
  rw [assignedIds, List.filterMap_cons, h1, h2]
  rfl

theorem assignedIds_cons_hasId (heap heap2 : Nat → JSRecord) (addr : Nat)
    (addrs : List Nat)
    (h1 : getProp (heap addr) "ID" ≠ .undef) :
    assignedIds heap heap2 (addr :: addrs) = assignedIds heap heap2 addrs := by
  rw [assignedIds, List.filterMap_cons]
  cases hv : getProp (heap addr) "ID" with
  | undef => exact absurd hv h1
  | str s => cases getProp (heap2 addr) "ID" <;> rfl
  | num n => cases getProp (heap2 addr) "ID" <;> rfl
  | null => cases getProp (heap2 addr) "ID" <;> rfl

theorem assignedIds_mem (heap heap2 : Nat → JSRecord) (addrs : List Nat) (s : String)
    (h : s ∈ assignedIds heap heap2 addrs) :
    ∃ a ∈ addrs, getProp (heap a) "ID" = .undef ∧ getProp (heap2 a) "ID" = .str s := by
  rcases List.mem_filterMap.mp h with ⟨a, ha, hm⟩
  refine ⟨a, ha, ?_⟩
  cases h1 : getProp (heap a) "ID" with
  | undef =>
    rw [h1] at hm
    cases h2 : getProp (heap2 a) "ID" with
    | str t =>
      rw [h2] at hm
      refine ⟨rfl, ?_⟩
      simp only [Option.some.injEq] at hm
      rw [hm]
    | undef => rw [h2] at hm; cases hm
    | num n => rw [h2] at hm; cases hm
    | null => rw [h2] at hm; cases hm
  | str t => rw [h1] at hm; cases getProp (heap2 a) "ID" <;> cases hm
  | num n => rw [h1] at hm; cases getProp (heap2 a) "ID" <;> cases hm
  | null => rw [h1] at hm; cases getProp (heap2 a) "ID" <;> cases hm

theorem assignedIds_congr (heap heapA heap2 : Nat → JSRecord) :
    ∀ addrs : List Nat, (∀ a ∈ addrs, heapA a = heap a) →
    assignedIds heap heap2 addrs = assignedIds heapA heap2 addrs := by
  intro addrs
  induction addrs with
  | nil => intro _; rfl
  | cons a t ih =>
    intro h
    rw [assignedIds, assignedIds, List.filterMap_cons, List.filterMap_cons]
    rw [h a (by simp)]
    have ht := ih (fun x hx => h x (by simp [hx]))
    rw [assignedIds, assignedIds] at ht
    rw [ht]

theorem insertLoop_sound (fields : List String) (stream : Nat → Bytes4) (fuel : Nat) :
    ∀ (addrs : List Nat) (heap : Nat → JSRecord) (data : List JSRecord) (pos : Nat)
      (heap2 : Nat → JSRecord) (rowsOut : List (List String)),
      addrs.Nodup →
      insertLoop fields stream fuel heap addrs data pos = some (heap2, rowsOut) →
      (∀ a, a ∉ addrs → heap2 a = heap a) ∧
      rowsOut = addrs.map (fun a => convertObjectToRow fields (heap2 a)) ∧
      (∀ a ∈ addrs,
        (getProp (heap a) "ID" ≠ .undef → heap2 a = heap a) ∧
        (getProp (heap a) "ID" = .undef →
          ∃ s, heap2 a = setProp (heap a) "ID" (.str s) ∧
            (∃ k, s = bytesToUpperHex (stream k)) ∧
            ∀ r ∈ data, strictEq (getProp r "ID") (.str s) = false)) ∧
      (assignedIds heap heap2 addrs).Nodup := by
  intro addrs
  induction addrs with
  | nil =>
    intro heap data pos heap2 rowsOut _ h
    simp only [insertLoop, Option.some.injEq, Prod.mk.injEq] at h
    obtain ⟨hh, hr⟩ := h
    subst hh; subst hr
    exact ⟨fun a _ => rfl, rfl, fun a ha => absurd ha (List.not_mem_nil a), List.nodup_nil⟩
  | cons addr addrs ih =>
    intro heap data pos heap2 rowsOut hnd h
    rcases List.nodup_cons.mp hnd with ⟨haddr, hnd2⟩
    simp only [insertLoop] at h
    by_cases hid : getProp (heap addr) "ID" = JSValue.undef
    · rw [if_pos hid] at h
      cases hg : genId data stream pos fuel with
      | none => rw [hg] at h; cases h
      | some pr =>
        obtain ⟨pid, pos2⟩ := pr
        rw [hg] at h
        dsimp only at h
        cases hrec : insertLoop fields stream fuel
            (fun a => if a = addr then setProp (heap addr) "ID" (.str pid) else heap a)
            addrs (data ++ [setProp (heap addr) "ID" (.str pid)]) pos2 with
        | none => rw [hrec] at h; cases h
        | some pr2 =>
          obtain ⟨heap3, rows3⟩ := pr2
          rw [hrec] at h
          simp only [Option.some.injEq, Prod.mk.injEq] at h
          obtain ⟨hh, hr⟩ := h
          subst hh; subst hr
          obtain ⟨frame3, rows3eq, props3, nodup3⟩ :=
            ih (fun a => if a = addr then setProp (heap addr) "ID" (.str pid) else heap a)
              (data ++ [setProp (heap addr) "ID" (.str pid)]) pos2 heap3 rows3 hnd2 hrec
          obtain ⟨hgen1, hgen2⟩ := genId_sound data stream fuel pos pid pos2 hg
          have hA : ∀ a ∈ addrs,
              (if a = addr then setProp (heap addr) "ID" (JSValue.str pid) else heap a)
                = heap a := by
            intro a ha
            have : a ≠ addr := fun he => haddr (he ▸ ha)
            simp [this]
          have h2addr : heap3 addr = setProp (heap addr) "ID" (JSValue.str pid) := by
            rw [frame3 addr haddr]
            simp
          refine ⟨?_, ?_, ?_, ?_⟩
          · intro a ha
            have h1 : a ≠ addr := fun he => ha (he ▸ List.mem_cons_self addr addrs)
            have h2 : a ∉ addrs := fun hm => ha (List.mem_cons_of_mem addr hm)
            rw [frame3 a h2]
            simp [h1]
          · rw [List.map_cons, ← h2addr]
            rw [rows3eq]
          · intro a ha
            rcases List.mem_cons.mp ha with he | hm
            · subst he
              constructor
              · intro hne; exact absurd hid hne
              · intro _
                exact ⟨pid, h2addr, hgen1, hgen2⟩
            · have hAa : (if a = addr then setProp (heap addr) "ID" (JSValue.str pid)
                  else heap a) = heap a := hA a hm
              obtain ⟨p1, p2⟩ := props3 a hm
              rw [hAa] at p1 p2
              constructor
              · exact p1
              · intro hu
                obtain ⟨s, hs1, hs2, hs3⟩ := p2 hu
                exact ⟨s, hs1, hs2, fun r hr => hs3 r (List.mem_append_left _ hr)⟩
          · have hprop : getProp (heap3 addr) "ID" = JSValue.str pid := by
              rw [h2addr]
              exact getProp_setProp_self (heap addr) "ID" (JSValue.str pid)
            rw [assignedIds_cons_undef heap heap3 addr addrs pid hid hprop]
            rw [assignedIds_congr heap
              (fun a => if a = addr then setProp (heap addr) "ID" (JSValue.str pid) else heap a)
              heap3 addrs hA]
            rw [List.nodup_cons]
            refine ⟨?_, nodup3⟩
            intro hmem
            obtain ⟨a, hax, ha1, ha2⟩ := assignedIds_mem
              (fun a => if a = addr then setProp (heap addr) "ID" (JSValue.str pid) else heap a)
              heap3 addrs pid hmem
            obtain ⟨-, p2⟩ := props3 a hax
            obtain ⟨s, hs1, -, hs3⟩ := p2 ha1
            have hsid : s = pid := by
              have hgp : getProp (heap3 a) "ID" = JSValue.str s := by
                rw [hs1]
                exact getProp_setProp_self _ "ID" (JSValue.str s)
              rw [ha2] at hgp
              injection hgp with hh
              exact hh.symm
            subst hsid
            have hwf := hs3 (setProp (heap addr) "ID" (JSValue.str s))
              (List.mem_append_right _ (by simp))
            rw [getProp_setProp_self] at hwf
            simp [strictEq] at hwf
    · rw [if_neg hid] at h
      cases hrec : insertLoop fields stream fuel heap addrs (data ++ [heap addr]) pos with
      | none => rw [hrec] at h; cases h
      | some pr2 =>
        obtain ⟨heap3, rows3⟩ := pr2
        rw [hrec] at h
        simp only [Option.some.injEq, Prod.mk.injEq] at h
        obtain ⟨hh, hr⟩ := h
        subst hh; subst hr
        obtain ⟨frame3, rows3eq, props3, nodup3⟩ :=
          ih heap (data ++ [heap addr]) pos heap3 rows3 hnd2 hrec
        have h2addr : heap3 addr = heap addr := frame3 addr haddr
        refine ⟨?_, ?_, ?_, ?_⟩
        · intro a ha
          exact frame3 a (fun hm => ha (List.mem_cons_of_mem addr hm))
        · rw [List.map_cons, ← h2addr, rows3eq]
        · intro a ha
          rcases List.mem_cons.mp ha with he | hm
          · subst he
            exact ⟨fun _ => h2addr, fun hu => absurd hu hid⟩
          · obtain ⟨p1, p2⟩ := props3 a hm
            refine ⟨p1, ?_⟩
            intro hu
            obtain ⟨s, hs1, hs2, hs3⟩ := p2 hu
            exact ⟨s, hs1, hs2, fun r hr => hs3 r (List.mem_append_left _ hr)⟩
        · rw [assignedIds_cons_hasId heap heap3 addr addrs hid]
          exact nodup3

/-- C5: insert accepts one record or a batch (a single record is wrapped),
assigns every record lacking an `ID` a generated identifier of exactly 8
uppercase hex characters that collides neither with any fetched record's
identifier nor with any identifier assigned earlier in the batch, appends
all converted rows in input order through exactly one remote append call,
and returns the ID-augmented input records. -/
theorem insert_batch_spec (header : List String) (rest : List (List String))
    (heap : Nat → JSRecord) (arg : InsertArg) (stream : Nat → Bytes4) (fuel : Nat)
    (heap2 : Nat → JSRecord) (ret : List Nat) (calls : List RemoteCall)
    (hnd : (insertArgList arg).Nodup)
    (hrun : insertOp (header :: rest) heap arg stream fuel = some (heap2, ret, calls)) :
    ret = insertArgList arg ∧
    calls = [.fetch, .fetch, .append ((insertArgList arg).map
      (fun a => convertObjectToRow (setHead header) (heap2 a)))] ∧
    (∀ a ∈ insertArgList arg, getProp (heap a) "ID" = .undef →
      ∃ s, getProp (heap2 a) "ID" = .str s ∧ isHex8Upper s = true ∧
        ∀ r ∈ queryRecords (setHead header) rest none,
          strictEq (getProp r "ID") (.str s) = false) ∧
    (assignedIds heap heap2 (insertArgList arg)).Nodup ∧
    (∀ a, insertArgList (InsertArg.single a) = [a]) := by
  simp only [insertOp] at hrun
  cases hrec : insertLoop (setHead header) stream fuel heap (insertArgList arg)
      (queryRecords (setHead header) rest none) 0 with
  | none => rw [hrec] at hrun; cases hrun
  | some pr =>
    obtain ⟨heap3, rows3⟩ := pr
    rw [hrec] at hrun
    simp only [Option.some.injEq, Prod.mk.injEq] at hrun
    obtain ⟨hh, hret, hcalls⟩ := hrun
    subst hh
    obtain ⟨frame3, rows3eq, props3, nodup3⟩ := insertLoop_sound (setHead header) stream
      fuel (insertArgList arg) heap (queryRecords (setHead header) rest none) 0
      heap3 rows3 hnd hrec
    refine ⟨hret.symm, ?_, ?_, nodup3, fun a => rfl⟩
    · rw [← hcalls, rows3eq]
    · intro a ha hu
      obtain ⟨-, p2⟩ := props3 a ha
      obtain ⟨s, hs1, hs2, hs3⟩ := p2 hu
      refine ⟨s, ?_, ?_, hs3⟩
      · rw [hs1]
        exact getProp_setProp_self (heap a) "ID" (JSValue.str s)
      · obtain ⟨k, hk⟩ := hs2
        rw [hk]
        exact bytesToUpperHex_hex8 (stream k)

/-- C10: insert writes generated identifiers directly onto the
caller-supplied record objects (the address's record becomes its old value
with the `ID` property set), touches no other object, leaves records that
already had an identifier untouched, and returns exactly the input
addresses — a single record argument wrapped in a one-element sequence. -/
theorem insert_inplace_spec (header : List String) (rest : List (List String))
    (heap : Nat → JSRecord) (arg : InsertArg) (stream : Nat → Bytes4) (fuel : Nat)
    (heap2 : Nat → JSRecord) (ret : List Nat) (calls : List RemoteCall)
    (hnd : (insertArgList arg).Nodup)
    (hrun : insertOp (header :: rest) heap arg stream fuel = some (heap2, ret, calls)) :
    ret = insertArgList arg ∧
    (∀ a ∈ insertArgList arg, getProp (heap a) "ID" = .undef →
      ∃ s, heap2 a = setProp (heap a) "ID" (JSValue.str s)) ∧
    (∀ a ∈ insertArgList arg, getProp (heap a) "ID" ≠ .undef → heap2 a = heap a) ∧
    (∀ a, a ∉ insertArgList arg → heap2 a = heap a) ∧
    (∀ a, insertArgList (InsertArg.single a) = [a]) := by
  simp only [insertOp] at hrun
  cases hrec : insertLoop (setHead header) stream fuel heap (insertArgList arg)
      (queryRecords (setHead header) rest none) 0 with
  | none => rw [hrec] at hrun; cases hrun
  | some pr =>
    obtain ⟨heap3, rows3⟩ := pr
    rw [hrec] at hrun
    simp only [Option.some.injEq, Prod.mk.injEq] at hrun
    obtain ⟨hh, hret, hcalls⟩ := hrun
    subst hh
    obtain ⟨frame3, rows3eq, props3, nodup3⟩ := insertLoop_sound (setHead header) stream
      fuel (insertArgList arg) heap (queryRecords (setHead header) rest none) 0
      heap3 rows3 hnd hrec
    refine ⟨hret.symm, ?_, ?_, frame3, fun a => rfl⟩
    · intro a ha hu
      obtain ⟨-, p2⟩ := props3 a ha
      obtain ⟨s, hs1, -, -⟩ := p2 hu
      exact ⟨s, hs1⟩
    · intro a ha hne
      exact (props3 a ha).1 hne

/-- Closed instance of the C5 theorem: inserting one record without an `ID`
over an empty data set, with an all-zero random stream, assigns the
8-character identifier `00000000` and issues one append call. -/
theorem insert_batch_witness :
    insertOp [["id", "Name"]] wHeap (.many [0]) wStream 1 = some (wHeap2, [0], wCalls) ∧
    (∃ s, getProp (wHeap2 0) "ID" = JSValue.str s ∧ isHex8Upper s = true) ∧
    (assignedIds wHeap wHeap2 [0]).Nodup := by
  have hrun : insertOp [["id", "Name"]] wHeap (.many [0]) wStream 1
      = some (wHeap2, [0], wCalls) := rfl
  have h := insert_batch_spec ["id", "Name"] [] wHeap (.many [0]) wStream 1
    wHeap2 [0] wCalls (by decide) hrun
  refine ⟨hrun, ?_, h.2.2.2.1⟩
  obtain ⟨s, hs1, hs2, -⟩ := h.2.2.1 0 (by decide) (by decide)
  exact ⟨s, hs1, hs2⟩

/-- Closed instance of the C10 theorem: the generated identifier is written
in place onto the input record at address 0, and a single-record argument
comes back as a one-element sequence. -/
theorem insert_inplace_witness :
    (∃ s, wHeap2 0 = setProp (wHeap 0) "ID" (JSValue.str s)) ∧
    insertArgList (InsertArg.single 3) = [3] := by
  have hrun : insertOp [["id", "Name"]] wHeap (.many [0]) wStream 1
      = some (wHeap2, [0], wCalls) := rfl
  have h := insert_inplace_spec ["id", "Name"] [] wHeap (.many [0]) wStream 1
    wHeap2 [0] wCalls (by decide) hrun
  exact ⟨h.2.1 0 (by decide) (by decide), h.2.2.2.2 3⟩
